import Mathlib

/-!
# Verification of the citation-management and source-ranking core

Shallow embedding of `core/agents/citation_manager.py` and the ranking part of
`core/agents/search_agent.py`.  Python strings are modelled as `String` /
`List Char`, Python floats as `ℚ`, Python dicts (insertion ordered) as
association lists, and `datetime` timestamps as opaque `Nat` values.
-/

/-! ## Decimal rendering and parsing, modelling Python `str(n)` and `int(s)` -/

/-- The character for a decimal digit, as produced by Python `str`. -/
def digitChar (d : Nat) : Char := Char.ofNat (48 + d)

/-- Fuel-driven decimal rendering of a natural number (most significant digit
first); with fuel `> n` this is exactly the decimal representation. -/
def toDecimalAux : Nat → Nat → List Char
  | 0, _ => []
  | fuel + 1, n =>
    if n < 10 then [digitChar n]
    else toDecimalAux fuel (n / 10) ++ [digitChar (n % 10)]

/-- Decimal representation of `n` as a character list (Python `str(n)`). -/
def natReprL (n : Nat) : List Char := toDecimalAux (n + 1) n

/-- Decimal representation of `n` as a string (Python `str(n)`, `f"{n}"`). -/
def natRepr (n : Nat) : String := (natReprL n).asString

/-- Numeric value of a decimal digit character, `none` on non-digits. -/
def digitVal (c : Char) : Option Nat :=
  if '0' ≤ c ∧ c ≤ '9' then some (c.toNat - 48) else none

/-- Accumulating decimal parser over a character list. -/
def pyNatAux : List Char → Nat → Option Nat
  | [], acc => some acc
  | c :: cs, acc =>
    match digitVal c with
    | some d => pyNatAux cs (10 * acc + d)
    | none => none

/-- Model of Python `int(s)` on a character list: an optional leading minus
sign followed by at least one decimal digit; `none` when `int` would raise
`ValueError`. -/
def pyInt? (cs : List Char) : Option Int :=
  match cs with
  | [] => none
  | c :: rest =>
    if c = '-' then
      match rest with
      | [] => none
      | _ => (pyNatAux rest 0).map (fun n => -(n : Int))
    else (pyNatAux (c :: rest) 0).map (fun n => (n : Int))

/-! ## Data model (`core/models/state.py`) -/

/-- A discovered document (`Source` in `core/models/state.py`); floats are
modelled as `ℚ` and the `datetime` timestamp as an abstract `Nat`. -/
structure Source where
  id : String
  url : String
  title : String
  snippet : String
  domain : String
  timestamp : Nat
  relevance_score : ℚ
deriving DecidableEq

/-- The synthesized answer record (`CitedContent` in `core/models/state.py`). -/
structure CitedContent where
  content : String
  source_ids : List String
  confidence : ℚ
deriving DecidableEq

/-- The mutable state of a `CitationManager` instance: `source_registry` is a
Python dict modelled as an insertion-ordered association list, `url_to_id`
likewise (it is initialized by `reset` and never written afterwards). -/
structure CMState where
  source_registry : List (String × Source)
  citation_counter : Nat
  url_to_id : List (String × String)
deriving DecidableEq

/-- The state produced by `CitationManager.reset` (and by `__init__`). -/
def initState : CMState :=
  { source_registry := [], citation_counter := 1, url_to_id := [] }

/-- `CitationManager.reset`: clears the registry and resets the counter to 1. -/
def reset (_st : CMState) : CMState := initState

/-! ## `CitationManager.add_source` -/

/-- The `for existing_id, existing in self.source_registry.items()` scan of
`add_source`: first identifier whose stored source has the given url. -/
def findByUrl : List (String × Source) → String → Option String
  | [], _ => none
  | (existing_id, existing) :: rest, url =>
    if existing.url = url then some existing_id else findByUrl rest url

/-- The identifier string `f"src_{self.citation_counter}"`. -/
def mkId (n : Nat) : String := "src_" ++ natRepr n

/-- `CitationManager.add_source`: reuse the identifier of an existing source
with the same url, else mint `src_<counter>`, append, and bump the counter. -/
def add_source (st : CMState) (source : Source) : String × CMState :=
  match findByUrl st.source_registry source.url with
  | some existing_id => (existing_id, st)
  | none =>
    let source_id := mkId st.citation_counter
    (source_id,
      { st with
        source_registry := st.source_registry ++ [(source_id, source)],
        citation_counter := st.citation_counter + 1 })

/-! ## `CitationManager.get_citation_number` -/

/-- Python `list.index`: index of the first occurrence (meaningful only when
the element is present, as in the guarded call site). -/
def listIndex (x : String) : List String → Nat
  | [] => 0
  | y :: ys => if y = x then 0 else listIndex x ys + 1

/-- `CitationManager.get_citation_number`: 1-based first position of the id
among the registry keys, 0 when absent. -/
def get_citation_number (st : CMState) (source_id : String) : Nat :=
  let source_ids := st.source_registry.map Prod.fst
  if source_id ∈ source_ids then listIndex source_id source_ids + 1 else 0

/-! ## `CitationManager.calculate_confidence` -/

/-- Python dict lookup `self.source_registry[sid]` (first binding wins). -/
def lookupReg : List (String × Source) → String → Option Source
  | [], _ => none
  | (k, v) :: rest, sid => if k = sid then some v else lookupReg rest sid

/-- `CitationManager.calculate_confidence`: 0.0 on an empty list, else the sum
of the relevance scores of the ids present in the registry divided by the
length of the whole id list, capped at 1.0. -/
def calculate_confidence (st : CMState) (source_ids : List String) : ℚ :=
  if source_ids.isEmpty then 0
  else
    let total_relevance :=
      ((source_ids.filterMap (lookupReg st.source_registry)).map Source.relevance_score).sum
    min (total_relevance / source_ids.length) 1

/-! ## `CitationManager.insert_citations` and `create_cited_content` -/

/-- Python regex `\s` on the ASCII whitespace characters. -/
def isWsChar (c : Char) : Bool :=
  c == ' ' || c == '\t' || c == '\n' || c == '\r' || c == '\x0b' || c == '\x0c'

/-- Whether the previously read character (head of the reversed accumulator)
is sentence-ending punctuation — the `(?<=[.!?])` lookbehind. -/
def headPunct : List Char → Bool
  | [] => false
  | c :: _ => c == '.' || c == '!' || c == '?'

/-- Scanner for `re.split(r'(?<=[.!?])\s+', text)`: `cur` is the reversed
current segment, `inGap` true while consuming a splitting whitespace run. -/
def sentGo : List Char → List Char → Bool → List (List Char)
  | [], cur, _ => [cur.reverse]
  | c :: rest, cur, true =>
    if isWsChar c then sentGo rest cur true
    else sentGo rest [c] false
  | c :: rest, cur, false =>
    if isWsChar c ∧ headPunct cur then cur.reverse :: sentGo rest [] true
    else sentGo rest (c :: cur) false

/-- `re.split(r'(?<=[.!?])\s+', text)`. -/
def splitSentences (s : String) : List String :=
  (sentGo s.data [] false).map List.asString

/-- Python `sep.join(parts)`. -/
def joinWith (sep : String) : List String → String
  | [] => ""
  | [x] => x
  | x :: y :: xs => x ++ sep ++ joinWith sep (y :: xs)

/-- Python `sentences[-1] += citation` guarded by `if sentences:`. -/
def appendToLast (citation : String) : List String → List String
  | [] => []
  | [x] => [x ++ citation]
  | x :: y :: xs => x :: appendToLast citation (y :: xs)

/-- `CitationManager.insert_citations`: split into sentences, append the
citation to the last one, and rejoin with single spaces. -/
def insert_citations (text citation : String) : String :=
  joinWith " " (appendToLast citation (splitSentences text))

/-- The marker `f"[{self.get_citation_number(source_id)}]"`. -/
def citationMarker (st : CMState) (source_id : String) : String :=
  "[" ++ natRepr (get_citation_number st source_id) ++ "]"

/-- `CitationManager.create_cited_content`: insert one marker per source id,
in order, and package the result with the confidence score. -/
def create_cited_content (st : CMState) (content : String)
    (source_ids : List String) : CitedContent :=
  { content :=
      source_ids.foldl (fun cited sid => insert_citations cited (citationMarker st sid)) content,
    source_ids := source_ids,
    confidence := calculate_confidence st source_ids }

/-! ## `CitationManager.format_sources_list` -/

/-- Python `str.split(sep)` for a single-character separator. -/
def splitOnChar (sep : Char) : List Char → List (List Char)
  | [] => [[]]
  | c :: rest =>
    if c = sep then [] :: splitOnChar sep rest
    else
      match splitOnChar sep rest with
      | [] => [[c]]
      | t :: ts => (c :: t) :: ts

/-- The `get_id_number` sort key of `format_sources_list` on an identifier
string: `int(id_str.split('_')[1])`, with `⊤` modelling the `float('inf')`
fallback on `IndexError`/`ValueError`. -/
def idNum (id_str : String) : WithTop ℤ :=
  match (splitOnChar '_' id_str.data).get? 1 with
  | none => ⊤
  | some number_part =>
    match pyInt? number_part with
    | none => ⊤
    | some z => (z : WithTop ℤ)

/-- `get_id_number` applied to a registry item `(source_id, source)`. -/
def get_id_number (item : String × Source) : WithTop ℤ := idNum item.1

/-- The ordering used by `sorted(self.source_registry.items(), key=get_id_number)`. -/
def bibLe (a b : String × Source) : Prop := get_id_number a ≤ get_id_number b

instance : DecidableRel bibLe := fun a b =>
  inferInstanceAs (Decidable (get_id_number a ≤ get_id_number b))

instance : IsTotal (String × Source) bibLe :=
  ⟨fun a b => le_total (get_id_number a) (get_id_number b)⟩

instance : IsTrans (String × Source) bibLe :=
  ⟨fun _ _ _ hab hbc => le_trans hab hbc⟩

/-- `sorted(self.source_registry.items(), key=get_id_number)`; Python `sorted`
is stable, which `List.insertionSort` with the key-`≤` relation realizes. -/
def sortedRegistry (st : CMState) : List (String × Source) :=
  List.insertionSort bibLe st.source_registry

/-- The rendering loop of `format_sources_list`, keeping the assigned row
number with each accepted `(source_id, source)` entry: an entry is accepted
when its url is unseen and fewer than 10 rows have been emitted. -/
def bibLoop : List (String × Source) → List String → Nat → List (Nat × String × Source)
  | [], _, _ => []
  | (source_id, source) :: rest, seen_urls, count =>
    if source.url ∉ seen_urls ∧ count < 10 then
      (count + 1, source_id, source) :: bibLoop rest (source.url :: seen_urls) (count + 1)
    else bibLoop rest seen_urls count

/-- The accepted bibliography rows of a state, with their row numbers. -/
def bibRows (st : CMState) : List (Nat × String × Source) :=
  bibLoop (sortedRegistry st) [] 0

/-- One bibliography line `f"{count}. [{source.title}]({source.url}) - {source.domain}\n"`. -/
def rowStr (e : Nat × String × Source) : String :=
  natRepr e.1 ++ ". [" ++ e.2.2.title ++ "](" ++ e.2.2.url ++ ") - " ++ e.2.2.domain ++ "\n"

/-- `CitationManager.format_sources_list`. -/
def format_sources_list (st : CMState) : String :=
  "\n\n**Sources:**\n" ++ String.join ((bibRows st).map rowStr)

/-! ## `SearchAgent.rank_sources` -/

/-- The `domain_weights` table lookup `domain_weights.get(source.domain, 0.5)`. -/
def domain_weights (domain : String) : ℚ :=
  if domain = "wikipedia.org" then 0.9
  else if domain = "reddit.com" then 0.7
  else if domain = "stackoverflow.com" then 0.8
  else if domain = "github.com" then 0.8
  else if domain = "medium.com" then 0.7
  else 0.5

/-- The in-place update
`source.relevance_score = (source.relevance_score + domain_weight) / 2`. -/
def updateScore (source : Source) : Source :=
  { source with relevance_score := (source.relevance_score + domain_weights source.domain) / 2 }

/-- The ordering of `sorted(sources, key=lambda x: x.relevance_score, reverse=True)`:
descending score, stable on ties. -/
def rankLe (a b : Source) : Prop := b.relevance_score ≤ a.relevance_score

instance : DecidableRel rankLe := fun a b =>
  inferInstanceAs (Decidable (b.relevance_score ≤ a.relevance_score))

instance : IsTotal Source rankLe := ⟨fun a b => le_total b.relevance_score a.relevance_score⟩

instance : IsTrans Source rankLe := ⟨fun _ _ _ hab hbc => le_trans hbc hab⟩

/-- `SearchAgent.rank_sources`: blend each score with the domain weight, then
stably sort by the updated score, descending. -/
def rank_sources (sources : List Source) : List Source :=
  List.insertionSort rankLe (sources.map updateScore)

/-! ## Reachable repository states -/

/-- States of one `CitationManager` reachable through its mutating interface:
the freshly constructed/reset state, `add_source`, and `reset`. -/
inductive Reachable : CMState → Prop where
  | init : Reachable initState
  | add (st : CMState) (source : Source) :
      Reachable st → Reachable (add_source st source).2
  | reset (st old : CMState) : Reachable st → Reachable (reset old)

/-! ## Specification-side reformulations used in the theorem statements -/

/-- Keep the first entry for each url (the spec's "deduplicated again on URL"). -/
def dedupKeep : List (String × Source) → List String → List (String × Source)
  | [], _ => []
  | e :: rest, seen =>
    if e.2.url ∈ seen then dedupKeep rest seen
    else e :: dedupKeep rest (e.2.url :: seen)

/-- Number the entries of a list consecutively starting at `n`. -/
def numberFrom : Nat → List (String × Source) → List (Nat × String × Source)
  | _, [] => []
  | n, e :: rest => (n, e) :: numberFrom (n + 1) rest

/-! ## Concrete instances used in scenario checks -/

/-- A sample source value for concrete scenarios. -/
def sampleSource (url domain : String) (score : ℚ) : Source :=
  { id := "", url := url, title := "T", snippet := "", domain := domain,
    timestamp := 0, relevance_score := score }

/-- A source with relevance score 1. -/
def srcA : Source := sampleSource "https://a.example" "a.example" 1

/-- A source with a negative provider relevance score. -/
def srcNeg : Source := sampleSource "https://neg.example" "neg.example" (-1)

/-- A registry holding only `srcA` under `src_1`. -/
def stC1 : CMState :=
  { source_registry := [("src_1", srcA)], citation_counter := 2, url_to_id := [] }

/-- The state reached by adding `srcNeg` to a fresh manager. -/
def stC2 : CMState := (add_source initState srcNeg).2

/-- The state reached by adding `srcA` to a fresh manager. -/
def st3 : CMState := (add_source initState srcA).2

/-- The state reached by adding `srcA` then `srcNeg` to a fresh manager. -/
def st4 : CMState := (add_source st3 srcNeg).2

/-- A registry in which identifier `id1` has citation number 1. -/
def stC7 : CMState :=
  { source_registry := [("id1", sampleSource "https://s.example" "s.example" 1)],
    citation_counter := 2, url_to_id := [] }

/-- The wikipedia source of the ranking scenario. -/
def wikiSource : Source := sampleSource "https://en.wikipedia.org/x" "wikipedia.org" 0.6

/-- The unknown-domain source of the ranking scenario. -/
def unknownSource : Source := sampleSource "https://unknown.xyz/y" "unknown.xyz" 0.6

/-- The i-th of 15 url-distinct demo sources. -/
def demoSource (i : Nat) : Source :=
  sampleSource ("https://example.com/" ++ natRepr i) "example.com" 0.5

/-- A registry of 15 sources with distinct urls. -/
def st15 : CMState :=
  { source_registry := (List.range' 1 15).map (fun i => (mkId i, demoSource i)),
    citation_counter := 16, url_to_id := [] }

/-! ## Lemmas about decimal rendering and parsing -/

theorem digitChar_spec {d : Nat} (hd : d < 10) :
    digitVal (digitChar d) = some d ∧ digitChar d ≠ '-' ∧ digitChar d ≠ '_' ∧
      (digitChar d = ' ' ∨ digitChar d = '\t' ∨ digitChar d = '\n' ∨
        digitChar d = '\r' ∨ digitChar d = '\x0b' ∨ digitChar d = '\x0c') = False := by
  interval_cases d <;> simp <;> decide

theorem toDecimalAux_ne_nil {fuel n : Nat} (h : n < fuel) : toDecimalAux fuel n ≠ [] := by
  cases fuel with
  | zero => omega
  | succ f =>
    unfold toDecimalAux
    split
    · simp
    · simp

theorem toDecimalAux_digits {fuel : Nat} : ∀ {n : Nat}, n < fuel →
    ∀ c ∈ toDecimalAux fuel n, ∃ d, d < 10 ∧ c = digitChar d := by
  induction fuel with
  | zero => intro n h; omega
  | succ f ih =>
    intro n h c hc
    unfold toDecimalAux at hc
    split at hc
    · rename_i h10
      simp at hc
      exact ⟨n, h10, hc⟩
    · rename_i h10
      rw [List.mem_append] at hc
      rcases hc with hc | hc
      · exact ih (by omega) c hc
      · simp at hc
        exact ⟨n % 10, Nat.mod_lt _ (by omega), hc⟩

theorem pyNatAux_append (xs ys : List Char) (acc : Nat) :
    pyNatAux (xs ++ ys) acc =
      match pyNatAux xs acc with
      | some m => pyNatAux ys m
      | none => none := by
  induction xs generalizing acc with
  | nil => simp [pyNatAux]
  | cons c cs ih =>
    simp only [List.cons_append, pyNatAux]
    cases digitVal c with
    | none => simp
    | some d => simp [ih]

theorem pyNatAux_toDecimalAux {fuel : Nat} : ∀ {n : Nat}, n < fuel → ∀ acc,
    pyNatAux (toDecimalAux fuel n) acc =
      some (acc * 10 ^ (toDecimalAux fuel n).length + n) := by
  induction fuel with
  | zero => intro n h; omega
  | succ f ih =>
    intro n h acc
    unfold toDecimalAux
    split
    · rename_i h10
      have hdv : digitVal (digitChar n) = some n := (digitChar_spec h10).1
      simp [pyNatAux, hdv]
      ring
    · rename_i h10
      have hdiv : n / 10 < f := by
        have h1 : 0 < n := by omega
        have h2 : n / 10 < n := Nat.div_lt_self h1 (by omega)
        omega
      rw [pyNatAux_append, ih hdiv acc]
      have hd : n % 10 < 10 := Nat.mod_lt _ (by omega)
      have hdv : digitVal (digitChar (n % 10)) = some (n % 10) := (digitChar_spec hd).1
      simp [pyNatAux, hdv, pow_succ]
      have := Nat.div_add_mod n 10
      ring_nf
      omega

theorem pyInt?_natReprL (n : Nat) : pyInt? (natReprL n) = some (n : Int) := by
  have hne : natReprL n ≠ [] := toDecimalAux_ne_nil (Nat.lt_succ_self n)
  have hparse : pyNatAux (natReprL n) 0 = some n := by
    have := pyNatAux_toDecimalAux (Nat.lt_succ_self n) 0
    simpa [natReprL] using this
  rcases hc : natReprL n with _ | ⟨c, rest⟩
  · exact absurd hc hne
  · have hcmem : c ∈ natReprL n := by rw [hc]; exact List.mem_cons_self _ _
    obtain ⟨d, hd, hcd⟩ := toDecimalAux_digits (Nat.lt_succ_self n) c hcmem
    have hcne : c ≠ '-' := hcd ▸ (digitChar_spec hd).2.1
    rw [hc] at hparse
    simp [pyInt?, hcne, hparse]

/-! ## String-level helper lemmas -/

theorem string_append_cancel_right {a b c : String} (h : a ++ c = b ++ c) : a = b := by
  have h2 := congrArg String.data h
  simp only [String.data_append] at h2
  have h3 := List.append_cancel_right h2
  cases a; cases b; simp_all

theorem asString_append (a b : List Char) :
    (a ++ b).asString = a.asString ++ b.asString := rfl

theorem data_asString (l : List Char) : l.asString.data = l := rfl

theorem asString_data (s : String) : s.data.asString = s := by cases s; rfl

/-! ## Lemmas about digits, whitespace and identifier parsing -/

theorem isWsChar_digitChar {d : Nat} (hd : d < 10) : isWsChar (digitChar d) = false := by
  interval_cases d <;> decide

theorem natReprL_no_underscore (n : Nat) : '_' ∉ natReprL n := by
  intro hmem
  obtain ⟨d, hd, hcd⟩ := toDecimalAux_digits (Nat.lt_succ_self n) _ hmem
  exact (digitChar_spec hd).2.2.1 hcd.symm

theorem natReprL_wsFree (n : Nat) : ∀ c ∈ natReprL n, isWsChar c = false := by
  intro c hmem
  obtain ⟨d, hd, hcd⟩ := toDecimalAux_digits (Nat.lt_succ_self n) _ hmem
  rw [hcd]
  exact isWsChar_digitChar hd

theorem splitOnChar_not_mem {sep : Char} {ys : List Char} (h : sep ∉ ys) :
    splitOnChar sep ys = [ys] := by
  induction ys with
  | nil => rfl
  | cons c rest ih =>
    have hc : ¬ c = sep := fun he => h (he ▸ List.mem_cons_self _ _)
    have hr : sep ∉ rest := fun hm => h (List.mem_cons_of_mem _ hm)
    simp [splitOnChar, hc, ih hr]

theorem splitOnChar_append_sep {sep : Char} {xs : List Char} (ys : List Char)
    (h : sep ∉ xs) : splitOnChar sep (xs ++ sep :: ys) = xs :: splitOnChar sep ys := by
  induction xs with
  | nil => simp [splitOnChar]
  | cons c rest ih =>
    have hc : ¬ c = sep := fun he => h (he ▸ List.mem_cons_self _ _)
    have hr : sep ∉ rest := fun hm => h (List.mem_cons_of_mem _ hm)
    have h2 := ih hr
    simp only [List.cons_append, splitOnChar, if_neg hc]
    rw [show rest.append (sep :: ys) = rest ++ sep :: ys from rfl, h2]

theorem mkId_data (i : Nat) :
    (mkId i).data = 's' :: 'r' :: 'c' :: '_' :: natReprL i := by
  show ("src_" ++ natRepr i).data = _
  rw [String.data_append]
  rfl

theorem idNum_mkId (i : Nat) : idNum (mkId i) = ((i : ℤ) : WithTop ℤ) := by
  unfold idNum
  rw [mkId_data]
  have hsplit :
      splitOnChar '_' ('s' :: 'r' :: 'c' :: '_' :: natReprL i) =
        ['s', 'r', 'c'] :: splitOnChar '_' (natReprL i) := by
    have := @splitOnChar_append_sep '_' ['s', 'r', 'c'] (natReprL i) (by decide)
    simpa using this
  rw [hsplit, splitOnChar_not_mem (natReprL_no_underscore i)]
  simp [List.get?, pyInt?_natReprL i]

theorem mkId_injective {i j : Nat} (h : mkId i = mkId j) : i = j := by
  have h2 := congrArg idNum h
  rw [idNum_mkId, idNum_mkId] at h2
  exact_mod_cast h2

/-! ## Lemmas about `findByUrl` and `add_source` -/

theorem findByUrl_eq_none {l : List (String × Source)} {u : String} :
    findByUrl l u = none ↔ ∀ e ∈ l, e.2.url ≠ u := by
  induction l with
  | nil => simp [findByUrl]
  | cons e rest ih =>
    obtain ⟨i, s⟩ := e
    by_cases hu : s.url = u
    · simp [findByUrl, hu]
    · simp [findByUrl, hu, ih]

theorem findByUrl_eq_some {l : List (String × Source)} {u : String} {i : String}
    (h : findByUrl l u = some i) : ∃ s, (i, s) ∈ l ∧ s.url = u := by
  induction l with
  | nil => simp [findByUrl] at h
  | cons e rest ih =>
    obtain ⟨j, s⟩ := e
    by_cases hu : s.url = u
    · simp [findByUrl, hu] at h
      exact ⟨s, by simp [h], hu⟩
    · simp [findByUrl, hu] at h
      obtain ⟨s', hmem, hurl⟩ := ih h
      exact ⟨s', List.mem_cons_of_mem _ hmem, hurl⟩

theorem findByUrl_isSome {l : List (String × Source)} {u : String}
    (h : ∃ e ∈ l, e.2.url = u) : ∃ i, findByUrl l u = some i := by
  rcases hf : findByUrl l u with _ | i
  · obtain ⟨e, hmem, hurl⟩ := h
    exact absurd hurl (findByUrl_eq_none.1 hf e hmem)
  · exact ⟨i, rfl⟩

theorem findByUrl_append (l l' : List (String × Source)) (u : String) :
    findByUrl (l ++ l') u =
      match findByUrl l u with
      | some i => some i
      | none => findByUrl l' u := by
  induction l with
  | nil => simp [findByUrl]
  | cons e rest ih =>
    obtain ⟨j, s⟩ := e
    by_cases hu : s.url = u
    · simp [findByUrl, hu]
    · simp [findByUrl, hu, ih]

/-! ## The registry invariant maintained by the mutating interface -/

/-- Reachable-state invariant: the registry keys are exactly
`src_1, …, src_n` in insertion order, the counter is `n + 1`, and no two
entries share a url. -/
def RegInv (st : CMState) : Prop :=
  st.source_registry.map Prod.fst =
      (List.range' 1 st.source_registry.length).map mkId ∧
    st.citation_counter = st.source_registry.length + 1 ∧
    st.source_registry.Pairwise (fun a b => a.2.url ≠ b.2.url)

theorem regInv_init : RegInv initState := by
  refine ⟨rfl, rfl, List.Pairwise.nil⟩

theorem regInv_add (st : CMState) (source : Source) (h : RegInv st) :
    RegInv (add_source st source).2 := by
  obtain ⟨hkeys, hcount, hurls⟩ := h
  unfold add_source
  rcases hf : findByUrl st.source_registry source.url with _ | i
  · have hfresh : ∀ e ∈ st.source_registry, e.2.url ≠ source.url :=
      findByUrl_eq_none.1 hf
    refine ⟨?_, ?_, ?_⟩
    · simp only [List.map_append, List.length_append, List.length_singleton,
        hkeys, hcount, List.map_cons, List.map_nil]
      rw [List.range'_concat]
      simp [Nat.add_comm]
    · simp [hcount]
    · rw [List.pairwise_append]
      refine ⟨hurls, List.pairwise_singleton _ _, ?_⟩
      intro a ha b hb
      simp only [List.mem_singleton] at hb
      rw [hb]
      exact fun he => hfresh a ha he
  · exact ⟨hkeys, hcount, hurls⟩

theorem reachable_regInv {st : CMState} (h : Reachable st) : RegInv st := by
  induction h with
  | init => exact regInv_init
  | add st source _ ih => exact regInv_add st source ih
  | reset st old _ => exact regInv_init

/-! ## Lemmas about `listIndex` and `get_citation_number` -/

theorem listIndex_append_cons {x : String} {l1 l2 : List String} (h : x ∉ l1) :
    listIndex x (l1 ++ x :: l2) = l1.length := by
  induction l1 with
  | nil => simp [listIndex]
  | cons y ys ih =>
    have hxy : ¬ y = x := fun he => h (he ▸ List.mem_cons_self _ _)
    have hys : x ∉ ys := fun hm => h (List.mem_cons_of_mem _ hm)
    simp [listIndex, hxy, ih hys]

theorem listIndex_get? {l : List String} {x : String} {j : Nat}
    (hnd : l.Nodup) (hget : l.get? j = some x) : listIndex x l = j := by
  induction l generalizing j with
  | nil => simp at hget
  | cons y ys ih =>
    cases j with
    | zero =>
      have hyx : y = x := Option.some.inj hget
      simp [listIndex, hyx]
    | succ j' =>
      have hget' : ys.get? j' = some x := hget
      have hys : x ∈ ys := List.get?_mem hget'
      have hyx : ¬ y = x := fun he => (List.nodup_cons.1 hnd).1 (he ▸ hys)
      simp [listIndex, hyx, ih (List.nodup_cons.1 hnd).2 hget']

/-! ## Lemmas about the bibliography sort and rendering loop -/

theorem sorted_bibLe_of_canonical {l : List (String × Source)}
    (h : l.map Prod.fst = (List.range' 1 l.length).map mkId) : l.Sorted bibLe := by
  have h1 : List.Pairwise (· < ·) (List.range' 1 l.length) :=
    List.pairwise_lt_range' 1 l.length
  have h2 : List.Pairwise (fun i j : Nat => idNum (mkId i) ≤ idNum (mkId j))
      (List.range' 1 l.length) := by
    refine h1.imp ?_
    intro i j hij
    rw [idNum_mkId, idNum_mkId]
    exact_mod_cast Int.ofNat_le.2 (Nat.le_of_lt hij)
  have h3 : List.Pairwise (fun x y : String => idNum x ≤ idNum y)
      (l.map Prod.fst) := by
    rw [h, List.pairwise_map]
    exact h2
  rw [List.pairwise_map] at h3
  exact h3.imp (fun hab => hab)

theorem sortedRegistry_eq_of_canonical {st : CMState}
    (h : st.source_registry.map Prod.fst =
      (List.range' 1 st.source_registry.length).map mkId) :
    sortedRegistry st = st.source_registry :=
  List.Sorted.insertionSort_eq (sorted_bibLe_of_canonical h)

theorem dedupKeep_of_distinct {l : List (String × Source)} :
    ∀ {seen : List String}, (∀ e ∈ l, e.2.url ∉ seen) →
    l.Pairwise (fun a b => a.2.url ≠ b.2.url) → dedupKeep l seen = l := by
  induction l with
  | nil => intro seen _ _; rfl
  | cons e rest ih =>
    intro seen hseen hpw
    have he : e.2.url ∉ seen := hseen e (List.mem_cons_self _ _)
    have hrest : ∀ e' ∈ rest, e'.2.url ∉ e.2.url :: seen := by
      intro e' he' hmem
      rcases List.mem_cons.1 hmem with heq | hmem'
      · exact (List.pairwise_cons.1 hpw).1 e' he' heq.symm
      · exact hseen e' (List.mem_cons_of_mem _ he') hmem'
    simp [dedupKeep, he, ih hrest (List.pairwise_cons.1 hpw).2]

theorem bibLoop_eq (l : List (String × Source)) :
    ∀ (seen : List String) (count : Nat), count ≤ 10 →
    bibLoop l seen count = numberFrom (count + 1) ((dedupKeep l seen).take (10 - count)) := by
  induction l with
  | nil => intro seen count _; simp [bibLoop, dedupKeep, numberFrom]
  | cons e rest ih =>
    intro seen count hcount
    obtain ⟨source_id, source⟩ := e
    by_cases hseen : source.url ∈ seen
    · simp [bibLoop, dedupKeep, hseen, ih seen count hcount]
    · by_cases hlt : count < 10
      · have h10 : 10 - count = (10 - (count + 1)) + 1 := by omega
        simp only [bibLoop, dedupKeep, hseen, hlt, and_true, not_false_iff, if_true, if_pos]
        rw [ih (source.url :: seen) (count + 1) (by omega), h10]
        simp [numberFrom, List.take_succ_cons]
      · have hc10 : count = 10 := by omega
        have htake : 10 - count = 0 := by omega
        simp only [bibLoop, dedupKeep, hseen, hlt, and_false, not_false_iff, if_false, if_neg,
          htake, List.take_zero, numberFrom]
        rw [ih seen count hcount, htake]
        simp [numberFrom]

theorem numberFrom_mem {l : List (String × Source)} :
    ∀ {n k : Nat} {e : String × Source}, (k, e) ∈ numberFrom n l →
      n ≤ k ∧ l.get? (k - n) = some e := by
  induction l with
  | nil => intro n k e h; simp [numberFrom] at h
  | cons e' rest ih =>
    intro n k e h
    simp only [numberFrom, List.mem_cons] at h
    rcases h with h | h
    · have h12 : k = n ∧ e = e' := by simpa [Prod.ext_iff] using h
      obtain ⟨h1, h2⟩ := h12
      subst h1
      subst h2
      simp [List.get?]
    · obtain ⟨h1, h2⟩ := ih h
      refine ⟨by omega, ?_⟩
      have : k - n = (k - (n + 1)) + 1 := by omega
      rw [this]
      simpa using h2

theorem numberFrom_map_fst (l : List (String × Source)) :
    ∀ n, (numberFrom n l).map Prod.fst = List.range' n l.length := by
  induction l with
  | nil => intro n; rfl
  | cons e rest ih =>
    intro n
    simp [numberFrom, List.range'_succ, ih]

/-! ## Stability of the sorts with respect to equal keys -/

theorem filter_orderedInsert_key {α β : Type} [DecidableEq β] (r : α → α → Prop)
    [DecidableRel r] (k : α → β) (hk : ∀ a b, k a = k b → r a b) (x : α) (c : β) :
    ∀ l : List α, (List.orderedInsert r x l).filter (fun a => k a = c) =
      if k x = c then x :: l.filter (fun a => k a = c)
      else l.filter (fun a => k a = c) := by
  intro l
  induction l with
  | nil => by_cases hx : k x = c <;> simp [List.orderedInsert, List.filter, hx]
  | cons y ys ih =>
    by_cases hr : r x y
    · simp only [List.orderedInsert, if_pos hr]
      by_cases hx : k x = c <;> simp [List.filter, hx]
    · simp only [List.orderedInsert, if_neg hr]
      by_cases hy : k y = c
      · have hx : ¬ k x = c := fun hx => hr (hk x y (hx.trans hy.symm))
        simp [List.filter, hx, hy, ih]
      · by_cases hx : k x = c <;> simp [List.filter, hx, hy, ih]

theorem filter_insertionSort_key {α β : Type} [DecidableEq β] (r : α → α → Prop)
    [DecidableRel r] (k : α → β) (hk : ∀ a b, k a = k b → r a b) (c : β) :
    ∀ l : List α, (List.insertionSort r l).filter (fun a => k a = c) =
      l.filter (fun a => k a = c) := by
  intro l
  induction l with
  | nil => rfl
  | cons x xs ih =>
    simp only [List.insertionSort]
    rw [filter_orderedInsert_key r k hk x c]
    by_cases hx : k x = c <;> simp [List.filter, hx, ih]

/-! ## Lemmas about the sentence splitter and citation insertion -/

/-- A character list with no (Python `\s`) whitespace in it. -/
def wsFree (l : List Char) : Prop := ∀ c ∈ l, isWsChar c = false

theorem sentGo_ne_nil : ∀ (rem cur : List Char) (g : Bool), sentGo rem cur g ≠ [] := by
  intro rem
  induction rem with
  | nil => intro cur g; simp [sentGo]
  | cons c rest ih =>
    intro cur g
    cases g with
    | true =>
      by_cases hw : isWsChar c <;> simp [sentGo, hw, ih]
    | false =>
      by_cases hw : isWsChar c ∧ headPunct cur
      · simp [sentGo, hw]
      · simp [sentGo, hw, ih]

theorem sentGo_wsFree_false (rem : List Char) :
    ∀ cur, wsFree rem → sentGo rem cur false = [cur.reverse ++ rem] := by
  induction rem with
  | nil => intro cur _; simp [sentGo]
  | cons c rest ih =>
    intro cur hws
    have hc : isWsChar c = false := hws c (List.mem_cons_self _ _)
    have hrest : wsFree rest := fun c' hc' => hws c' (List.mem_cons_of_mem _ hc')
    have hcond : ¬ (isWsChar c ∧ headPunct cur) := by simp [hc]
    simp [sentGo, hcond, ih (c :: cur) hrest]

theorem sentGo_wsFree_true (rem : List Char) (cur : List Char) (h : wsFree rem) :
    ∃ p, sentGo rem cur true = [p ++ rem] := by
  cases rem with
  | nil => exact ⟨cur.reverse, by simp [sentGo]⟩
  | cons c rest =>
    have hc : isWsChar c = false := h c (List.mem_cons_self _ _)
    have hrest : wsFree rest := fun c' hc' => h c' (List.mem_cons_of_mem _ hc')
    refine ⟨[], ?_⟩
    simp [sentGo, hc, sentGo_wsFree_false rest [c] hrest]

theorem sentGo_suffix (r' : List Char) :
    ∀ (suffix cur : List Char) (g : Bool), wsFree suffix →
    ∃ init p, sentGo (r' ++ suffix) cur g = init ++ [p ++ suffix] := by
  induction r' with
  | nil =>
    intro suffix cur g hws
    cases g with
    | true =>
      obtain ⟨p, hp⟩ := sentGo_wsFree_true suffix cur hws
      exact ⟨[], p, by simpa using hp⟩
    | false =>
      exact ⟨[], cur.reverse, by simpa using sentGo_wsFree_false suffix cur hws⟩
  | cons a r'' ih =>
    intro suffix cur g hws
    cases g with
    | true =>
      by_cases hw : isWsChar a
      · obtain ⟨init, p, hp⟩ := ih suffix cur true hws
        exact ⟨init, p, by simpa [sentGo, hw] using hp⟩
      · obtain ⟨init, p, hp⟩ := ih suffix [a] false hws
        exact ⟨init, p, by simpa [sentGo, hw] using hp⟩
    | false =>
      by_cases hcond : isWsChar a ∧ headPunct cur
      · obtain ⟨init, p, hp⟩ := ih suffix [] true hws
        refine ⟨cur.reverse :: init, p, ?_⟩
        simpa [sentGo, hcond] using hp
      · obtain ⟨init, p, hp⟩ := ih suffix (a :: cur) false hws
        exact ⟨init, p, by simpa [sentGo, hcond] using hp⟩

theorem joinWith_cons (sep a : String) (l : List String) (h : l ≠ []) :
    joinWith sep (a :: l) = a ++ sep ++ joinWith sep l := by
  cases l with
  | nil => exact absurd rfl h
  | cons b r => rfl

theorem joinWith_last (sep : String) (x : String) :
    ∀ init : List String, ∃ q, joinWith sep (init ++ [x]) = q ++ x := by
  intro init
  induction init with
  | nil => exact ⟨"", by simp [joinWith]⟩
  | cons a rest ih =>
    obtain ⟨q, hq⟩ := ih
    rcases rest with _ | ⟨b, rest'⟩
    · exact ⟨a ++ sep, by simp [joinWith]⟩
    · refine ⟨a ++ sep ++ q, ?_⟩
      calc joinWith sep ((a :: b :: rest') ++ [x])
          = a ++ sep ++ joinWith sep ((b :: rest') ++ [x]) :=
            joinWith_cons sep a ((b :: rest') ++ [x]) (by simp)
        _ = a ++ sep ++ (q ++ x) := by rw [hq]
        _ = a ++ sep ++ q ++ x := by simp [String.append_assoc]

theorem joinWith_appendToLast (sep c : String) :
    ∀ l : List String, l ≠ [] →
      joinWith sep (appendToLast c l) = joinWith sep l ++ c := by
  intro l
  induction l with
  | nil => intro h; exact absurd rfl h
  | cons a rest ih =>
    intro _
    rcases rest with _ | ⟨b, rest'⟩
    · simp [appendToLast, joinWith]
    · have h1 : appendToLast c (b :: rest') ≠ [] := by
        cases rest' <;> simp [appendToLast]
      calc joinWith sep (appendToLast c (a :: b :: rest'))
          = a ++ sep ++ joinWith sep (appendToLast c (b :: rest')) :=
            joinWith_cons sep a (appendToLast c (b :: rest')) h1
        _ = a ++ sep ++ (joinWith sep (b :: rest') ++ c) := by rw [ih (by simp)]
        _ = joinWith sep (a :: b :: rest') ++ c := by
            rw [joinWith_cons sep a (b :: rest') (by simp)]
            simp [String.append_assoc]

theorem splitSentences_ne_nil (text : String) : splitSentences text ≠ [] := by
  unfold splitSentences
  intro h
  exact sentGo_ne_nil text.data [] false (List.map_eq_nil_iff.1 h)

theorem insert_citations_eq (text citation : String) :
    insert_citations text citation = joinWith " " (splitSentences text) ++ citation :=
  joinWith_appendToLast " " citation (splitSentences text) (splitSentences_ne_nil text)

theorem insert_citations_suffix (text extra citation : String)
    (hws : wsFree extra.data) :
    ∃ q, insert_citations (text ++ extra) citation = q ++ (extra ++ citation) := by
  obtain ⟨init, p, hp⟩ := sentGo_suffix text.data extra.data [] false hws
  have hdata : (text ++ extra).data = text.data ++ extra.data := String.data_append ..
  have hsplit : splitSentences (text ++ extra) =
      init.map List.asString ++ [p.asString ++ extra] := by
    unfold splitSentences
    rw [hdata, hp, List.map_append]
    simp [asString_append, asString_data]
  obtain ⟨q, hq⟩ := joinWith_last " " (p.asString ++ extra) (init.map List.asString)
  rw [insert_citations_eq, hsplit, hq]
  refine ⟨q ++ p.asString, ?_⟩
  simp [String.append_assoc]

theorem stringFoldl_append (l : List String) :
    ∀ c : String, List.foldl (fun r s => r ++ s) c l =
      c ++ List.foldl (fun r s => r ++ s) "" l := by
  induction l with
  | nil => intro c; simp
  | cons a rest ih =>
    intro c
    show List.foldl (fun r s => r ++ s) (c ++ a) rest = _
    rw [ih (c ++ a)]
    have h0 : List.foldl (fun r s => r ++ s) "" (a :: rest) =
        a ++ List.foldl (fun r s => r ++ s) "" rest := by
      show List.foldl (fun r s => r ++ s) ("" ++ a) rest = _
      rw [ih ("" ++ a)]
      simp
    rw [h0, String.append_assoc]

theorem string_join_cons (a : String) (l : List String) :
    String.join (a :: l) = a ++ String.join l := by
  show List.foldl (fun r s => r ++ s) ("" ++ a) l = _
  rw [stringFoldl_append l ("" ++ a)]
  simp [String.join]

theorem citationMarker_wsFree (st : CMState) (sid : String) :
    wsFree (citationMarker st sid).data := by
  intro c hc
  have hdata : (citationMarker st sid).data =
      '[' :: (natReprL (get_citation_number st sid) ++ [']']) := by
    show ("[" ++ natRepr (get_citation_number st sid) ++ "]").data = _
    rw [String.data_append, String.data_append]
    rfl
  rw [hdata] at hc
  rcases List.mem_cons.1 hc with h | h
  · rw [h]; rfl
  · rcases List.mem_append.1 h with h' | h'
    · exact natReprL_wsFree _ c h'
    · rw [List.mem_singleton.1 h']; rfl

theorem wsFree_append {a b : List Char} (ha : wsFree a) (hb : wsFree b) :
    wsFree (a ++ b) := by
  intro c hc
  rcases List.mem_append.1 hc with h | h
  · exact ha c h
  · exact hb c h

theorem wsFree_string_append {a b : String} (ha : wsFree a.data) (hb : wsFree b.data) :
    wsFree (a ++ b).data := by
  rw [String.data_append]
  exact wsFree_append ha hb

/-- The citation-insertion fold of `create_cited_content` keeps any
whitespace-free suffix of the running text and appends all markers after it. -/
theorem insert_fold_suffix (st : CMState) :
    ∀ (source_ids : List String) (text extra : String), wsFree extra.data →
      (∃ q0, text = q0 ++ extra) →
      ∃ p, source_ids.foldl
          (fun cited sid => insert_citations cited (citationMarker st sid)) text =
        p ++ (extra ++ String.join (source_ids.map (citationMarker st))) := by
  intro source_ids
  induction source_ids with
  | nil =>
    intro text extra _ hpre
    obtain ⟨q0, hq0⟩ := hpre
    refine ⟨q0, ?_⟩
    simpa [String.join] using hq0
  | cons sid rest ih =>
    intro text extra hws hpre
    obtain ⟨q0, hq0⟩ := hpre
    subst hq0
    obtain ⟨q1, hq1⟩ :=
      insert_citations_suffix q0 extra (citationMarker st sid) hws
    have hws' : wsFree (extra ++ citationMarker st sid).data :=
      wsFree_string_append hws (citationMarker_wsFree st sid)
    obtain ⟨p, hp⟩ := ih (insert_citations (q0 ++ extra) (citationMarker st sid))
      (extra ++ citationMarker st sid) hws' ⟨q1, hq1⟩
    refine ⟨p, ?_⟩
    simp only [List.foldl_cons, hp, List.map_cons, string_join_cons]
    simp [String.append_assoc]

/-! ## Lemmas about `calculate_confidence` -/

theorem filterMap_lookup_sum (reg : List (String × Source)) (ids : List String) :
    ((ids.filterMap (lookupReg reg)).map Source.relevance_score).sum =
      (ids.map (fun sid =>
        match lookupReg reg sid with
        | some s => s.relevance_score
        | none => 0)).sum := by
  induction ids with
  | nil => rfl
  | cons sid rest ih =>
    cases h : lookupReg reg sid <;>
      simp [List.filterMap_cons, h, ih]

/-! ## Claim theorems -/

/-- C1 (counterexample): `calculate_confidence` does NOT divide by the number
of identifiers present in the repository, as the claim asserts; with one
present id (score 1) and one absent id, the code returns 1/2 while the
claimed formula (mean over present identifiers only, clamped) gives 1. -/
theorem claim_C1_counterexample :
    calculate_confidence stC1 ["src_1", "missing"] ≠
      min ((((["src_1", "missing"].filterMap
            (lookupReg stC1.source_registry)).map Source.relevance_score).sum) /
        ((["src_1", "missing"].filterMap (lookupReg stC1.source_registry)).length)) 1 := by
  have hfm : ["src_1", "missing"].filterMap (lookupReg stC1.source_registry) = [srcA] := by
    simp [stC1, lookupReg, List.filterMap_cons]
  have h1 : calculate_confidence stC1 ["src_1", "missing"] = 1 / 2 := by
    rw [calculate_confidence]
    simp only [List.isEmpty_cons, if_false, Bool.false_eq_true, hfm]
    norm_num [srcA, sampleSource, min_def]
  have h2 : min ((((["src_1", "missing"].filterMap
          (lookupReg stC1.source_registry)).map Source.relevance_score).sum) /
        ((["src_1", "missing"].filterMap (lookupReg stC1.source_registry)).length)) 1
      = 1 := by
    rw [hfm]
    norm_num [srcA, sampleSource, min_def]
  rw [h1, h2]
  norm_num

/-- C1 (amended): for a non-empty id list, `calculate_confidence` returns the
sum of the scores of the identifiers present in the repository — absent
identifiers contributing 0 — divided by the length of the WHOLE id list
(so absent identifiers do count toward the denominator), clamped at 1; for an
empty list it returns 0. -/
theorem claim_C1_amended (st : CMState) (ids : List String) :
    (ids = [] → calculate_confidence st ids = 0) ∧
    (ids ≠ [] → calculate_confidence st ids =
      min (((ids.map (fun sid =>
          match lookupReg st.source_registry sid with
          | some s => s.relevance_score
          | none => (0 : ℚ))).sum) / (ids.length : ℚ)) 1) := by
  constructor
  · intro h
    subst h
    rfl
  · intro h
    rw [calculate_confidence]
    rw [if_neg (by simpa [List.isEmpty_iff] using h)]
    rw [filterMap_lookup_sum]

theorem claim_C1_amended_witness :
    calculate_confidence stC1 [] = 0 ∧
    calculate_confidence stC1 ["src_1", "missing"] =
      min (((["src_1", "missing"].map (fun sid =>
          match lookupReg stC1.source_registry sid with
          | some s => s.relevance_score
          | none => (0 : ℚ))).sum) / ((["src_1", "missing"].length : Nat) : ℚ)) 1 :=
  ⟨(claim_C1_amended stC1 []).1 rfl,
    (claim_C1_amended stC1 ["src_1", "missing"]).2 (by simp)⟩

/-- C2 (counterexample): the confidence of a non-empty id list is not always
in [0, 1]: a source added with a negative relevance score yields a negative
confidence, in a state reachable through `add_source` from a fresh manager. -/
theorem claim_C2_counterexample :
    Reachable stC2 ∧ calculate_confidence stC2 ["src_1"] < 0 := by
  constructor
  · exact Reachable.add initState srcNeg Reachable.init
  · have hst : stC2.source_registry = [("src_1", srcNeg)] := by decide
    rw [calculate_confidence]
    simp only [List.isEmpty_cons, Bool.false_eq_true, if_false, hst]
    norm_num [lookupReg, List.filterMap_cons, srcNeg, sampleSource, min_def]

/-- C2 (amended): the confidence is 0 on an empty list and never exceeds 1;
it is additionally nonnegative (hence in [0, 1]) whenever every cited source
present in the repository has a nonnegative relevance score, which the code
does not enforce. -/
theorem claim_C2_amended (st : CMState) (ids : List String) :
    (ids = [] → calculate_confidence st ids = 0) ∧
    (ids ≠ [] → calculate_confidence st ids ≤ 1) ∧
    ((∀ s ∈ ids.filterMap (lookupReg st.source_registry), 0 ≤ s.relevance_score) →
      0 ≤ calculate_confidence st ids) := by
  refine ⟨?_, ?_, ?_⟩
  · intro h
    subst h
    rfl
  · intro h
    rw [calculate_confidence, if_neg (by simpa [List.isEmpty_iff] using h)]
    exact min_le_right _ _
  · intro h
    rw [calculate_confidence]
    by_cases hids : ids.isEmpty
    · simp [hids]
    · rw [if_neg hids]
      refine le_min ?_ (by norm_num)
      refine div_nonneg ?_ (by positivity)
      refine List.sum_nonneg ?_
      intro x hx
      obtain ⟨s, hs, hsx⟩ := List.mem_map.1 hx
      exact hsx ▸ h s hs

theorem claim_C2_amended_witness :
    calculate_confidence stC1 [] = 0 ∧
    calculate_confidence stC1 ["src_1"] ≤ 1 ∧
    0 ≤ calculate_confidence stC1 ["src_1"] :=
  ⟨(claim_C2_amended stC1 []).1 rfl,
    (claim_C2_amended stC1 ["src_1"]).2.1 (by simp),
    (claim_C2_amended stC1 ["src_1"]).2.2 (by
      intro s hs
      have : s = srcA := by
        simpa [stC1, lookupReg, List.filterMap_cons] using hs
      rw [this]
      norm_num [srcA, sampleSource])⟩

/-- C3: `add_source` with an already-present url returns the existing
identifier and leaves the state unmutated; adding the same source twice
returns the same identifier; one add grows the registry by at most one entry;
and in every reachable state no two distinct identifiers map to sources with
the same url. -/
theorem claim_C3 (st : CMState) (source : Source) :
    ((∃ e ∈ st.source_registry, e.2.url = source.url) →
      (add_source st source).2 = st ∧
      ∃ s, ((add_source st source).1, s) ∈ st.source_registry ∧ s.url = source.url) ∧
    (add_source ((add_source st source).2) source).1 = (add_source st source).1 ∧
    (add_source st source).2.source_registry.length ≤ st.source_registry.length + 1 ∧
    (Reachable st → ∀ id1 s1 id2 s2, (id1, s1) ∈ st.source_registry →
      (id2, s2) ∈ st.source_registry → id1 ≠ id2 → s1.url ≠ s2.url) := by
  refine ⟨?_, ?_, ?_, ?_⟩
  · intro hex
    obtain ⟨i, hfind⟩ := findByUrl_isSome hex
    obtain ⟨s, hmem, hurl⟩ := findByUrl_eq_some hfind
    rw [add_source, hfind]
    exact ⟨rfl, s, hmem, hurl⟩
  · rcases hfind : findByUrl st.source_registry source.url with _ | i
    · have hpair : add_source st source =
          (mkId st.citation_counter,
            { st with
              source_registry :=
                st.source_registry ++ [(mkId st.citation_counter, source)],
              citation_counter := st.citation_counter + 1 }) := by
        rw [add_source, hfind]
      have hafter : findByUrl (st.source_registry ++ [(mkId st.citation_counter, source)])
          source.url = some (mkId st.citation_counter) := by
        rw [findByUrl_append, hfind]
        simp [findByUrl]
      rw [hpair, add_source]
      simp only [hafter]
    · have hpair : add_source st source = (i, st) := by
        rw [add_source, hfind]
      rw [hpair, hpair]
  · rw [add_source]
    rcases hfind : findByUrl st.source_registry source.url with _ | i <;> simp
  · intro hreach id1 s1 id2 s2 h1 h2 hne
    have hpw := (reachable_regInv hreach).2.2
    have hsymm : Symmetric (fun a b : String × Source => a.2.url ≠ b.2.url) :=
      fun a b hab h => hab h.symm
    have hne' : (id1, s1) ≠ (id2, s2) := by
      intro h
      exact hne (congrArg Prod.fst h)
    exact List.Pairwise.forall hsymm hpw h1 h2 hne'

theorem claim_C3_witness :
    ((add_source st3 srcA).2 = st3 ∧
      ∃ s, ((add_source st3 srcA).1, s) ∈ st3.source_registry ∧ s.url = srcA.url) ∧
    (add_source ((add_source st3 srcA).2) srcA).1 = (add_source st3 srcA).1 ∧
    (add_source st3 srcA).2.source_registry.length ≤ st3.source_registry.length + 1 ∧
    srcA.url ≠ srcNeg.url :=
  ⟨(claim_C3 st3 srcA).1 ⟨("src_1", srcA), by decide, rfl⟩,
    (claim_C3 st3 srcA).2.1,
    (claim_C3 st3 srcA).2.2.1,
    (claim_C3 st4 srcA).2.2.2
      (Reachable.add st3 srcNeg (Reachable.add initState srcA Reachable.init))
      "src_1" srcA "src_2" srcNeg (by decide) (by decide) (by decide)⟩

/-- C4: in every reachable state the registry keys are exactly the
identifiers `src_1 … src_n` in insertion order (prefix plus strictly
increasing integer starting at 1) and the counter is n + 1; a fresh-url add
mints `src_<counter>`, whose numeric value is strictly larger than that of
every identifier already in the registry, so an integer is never reused or
reassigned; and `reset` clears the mapping and resets the counter to 1. -/
theorem claim_C4 (st old : CMState) (source : Source) :
    (Reachable st →
      st.source_registry.map Prod.fst =
        (List.range' 1 st.source_registry.length).map mkId ∧
      st.citation_counter = st.source_registry.length + 1) ∧
    ((∀ e ∈ st.source_registry, e.2.url ≠ source.url) →
      (add_source st source).1 = mkId st.citation_counter ∧
      (add_source st source).2.source_registry =
        st.source_registry ++ [(mkId st.citation_counter, source)] ∧
      (add_source st source).2.citation_counter = st.citation_counter + 1) ∧
    (Reachable st → (∀ e ∈ st.source_registry, e.2.url ≠ source.url) →
      ∀ e ∈ st.source_registry, idNum e.1 < idNum (add_source st source).1) ∧
    reset old = initState := by
  refine ⟨?_, ?_, ?_, rfl⟩
  · intro hreach
    exact ⟨(reachable_regInv hreach).1, (reachable_regInv hreach).2.1⟩
  · intro hfresh
    have hfind : findByUrl st.source_registry source.url = none :=
      findByUrl_eq_none.2 hfresh
    rw [add_source, hfind]
    exact ⟨rfl, rfl, rfl⟩
  · intro hreach hfresh e he
    have hfind : findByUrl st.source_registry source.url = none :=
      findByUrl_eq_none.2 hfresh
    have hid : (add_source st source).1 = mkId st.citation_counter := by
      rw [add_source, hfind]
    rw [hid, idNum_mkId]
    have hkeys := (reachable_regInv hreach).1
    have hcount := (reachable_regInv hreach).2.1
    have hmem : e.1 ∈ st.source_registry.map Prod.fst := List.mem_map_of_mem _ he
    rw [hkeys] at hmem
    obtain ⟨i, hi, hie⟩ := List.mem_map.1 hmem
    have hirange := List.mem_range'_1.1 hi
    rw [← hie, idNum_mkId, hcount]
    have hlt : i < st.source_registry.length + 1 := by omega
    exact_mod_cast WithTop.coe_lt_coe.2 (Int.ofNat_lt.2 hlt)

theorem claim_C4_witness :
    (st3.source_registry.map Prod.fst =
        (List.range' 1 st3.source_registry.length).map mkId ∧
      st3.citation_counter = st3.source_registry.length + 1) ∧
    ((add_source st3 srcNeg).1 = mkId st3.citation_counter ∧
      (add_source st3 srcNeg).2.source_registry =
        st3.source_registry ++ [(mkId st3.citation_counter, srcNeg)] ∧
      (add_source st3 srcNeg).2.citation_counter = st3.citation_counter + 1) ∧
    (∀ e ∈ st3.source_registry, idNum e.1 < idNum (add_source st3 srcNeg).1) ∧
    reset stC1 = initState :=
  ⟨(claim_C4 st3 stC1 srcNeg).1 (Reachable.add initState srcA Reachable.init),
    (claim_C4 st3 stC1 srcNeg).2.1 (by decide),
    (claim_C4 st3 stC1 srcNeg).2.2.1 (Reachable.add initState srcA Reachable.init)
      (by decide),
    (claim_C4 st3 stC1 srcNeg).2.2.2⟩

/-- C9: `get_citation_number` returns the 1-based position of the identifier
in the insertion order of the registry keys (first occurrence) when present,
and the sentinel 0 — a total function, never an exception — when the
identifier is unknown. -/
theorem claim_C9 (st : CMState) (source_id : String) (l1 l2 : List String) :
    (st.source_registry.map Prod.fst = l1 ++ source_id :: l2 → source_id ∉ l1 →
      get_citation_number st source_id = l1.length + 1) ∧
    (source_id ∉ st.source_registry.map Prod.fst →
      get_citation_number st source_id = 0) := by
  constructor
  · intro hkeys hnot
    have hmem : source_id ∈ st.source_registry.map Prod.fst := by
      rw [hkeys]
      exact List.mem_append_right _ (List.mem_cons_self _ _)
    simp only [get_citation_number]
    rw [if_pos hmem, hkeys, listIndex_append_cons hnot]
  · intro hnot
    simp only [get_citation_number]
    rw [if_neg hnot]

theorem claim_C9_witness :
    get_citation_number st3 "src_1" = ([] : List String).length + 1 ∧
    get_citation_number st3 "zzz" = 0 :=
  ⟨(claim_C9 st3 "src_1" [] []).1 (by decide) (by decide),
    (claim_C9 st3 "zzz" [] []).2 (by decide)⟩

/-- C5: `rank_sources` returns a permutation of the input with every score
rewritten to the arithmetic mean of the original score and the domain weight
(0.9 wikipedia.org, 0.7 reddit.com, 0.8 stackoverflow.com, 0.8 github.com,
0.7 medium.com, 0.5 otherwise), sorted descending by the updated score with
ties kept in input order (key-stability); on the scenario inputs the blended
scores are 0.75 and 0.55 and the wikipedia source ranks first. -/
theorem claim_C5 :
    (∀ sources : List Source,
      (rank_sources sources).Perm (sources.map updateScore) ∧
      (rank_sources sources).Sorted rankLe ∧
      (∀ c : ℚ, (rank_sources sources).filter (fun a => a.relevance_score = c) =
        (sources.map updateScore).filter (fun a => a.relevance_score = c))) ∧
    (∀ source : Source, (updateScore source).relevance_score =
      (source.relevance_score + domain_weights source.domain) / 2) ∧
    (domain_weights "wikipedia.org" = 0.9 ∧ domain_weights "reddit.com" = 0.7 ∧
      domain_weights "stackoverflow.com" = 0.8 ∧ domain_weights "github.com" = 0.8 ∧
      domain_weights "medium.com" = 0.7) ∧
    (∀ domain : String,
      domain ∉ ["wikipedia.org", "reddit.com", "stackoverflow.com",
        "github.com", "medium.com"] → domain_weights domain = 0.5) ∧
    (rank_sources [wikiSource, unknownSource]).map Source.relevance_score =
      [0.75, 0.55] ∧
    (rank_sources [wikiSource, unknownSource]).map Source.domain =
      ["wikipedia.org", "unknown.xyz"] := by
  have hw : updateScore wikiSource =
      { wikiSource with relevance_score := 0.75 } := by
    simp [updateScore, domain_weights, wikiSource, sampleSource]
    norm_num
  have hu : updateScore unknownSource =
      { unknownSource with relevance_score := 0.55 } := by
    simp [updateScore, domain_weights, unknownSource, sampleSource]
    norm_num
  have hr : rank_sources [wikiSource, unknownSource] =
      [updateScore wikiSource, updateScore unknownSource] := by
    simp only [rank_sources, List.map_cons, List.map_nil, List.insertionSort,
      List.orderedInsert]
    rw [if_pos]
    rw [hw, hu]
    show (0.55 : ℚ) ≤ 0.75
    norm_num
  refine ⟨?_, fun _ => rfl, ⟨by simp [domain_weights], by simp [domain_weights],
    by simp [domain_weights], by simp [domain_weights],
    by simp [domain_weights]⟩, ?_, ?_, ?_⟩
  · intro sources
    refine ⟨List.perm_insertionSort rankLe _, List.sorted_insertionSort rankLe _, ?_⟩
    intro c
    exact filter_insertionSort_key rankLe Source.relevance_score
      (fun a b hab => le_of_eq hab.symm) c (sources.map updateScore)
  · intro domain hdom
    simp only [List.mem_cons, List.not_mem_nil, or_false, not_or] at hdom
    obtain ⟨h1, h2, h3, h4, h5⟩ := hdom
    simp [domain_weights, h1, h2, h3, h4, h5]
  · rw [hr, hw, hu]
    simp
  · rw [hr, hw, hu]
    simp [wikiSource, unknownSource, sampleSource]

theorem claim_C5_witness : domain_weights "unknown.xyz" = 0.5 :=
  claim_C5.2.2.2.1 "unknown.xyz" (by decide)

/-- C6: `format_sources_list` renders the header followed by one row per
entry of the suffix-sorted registry (unparseable suffixes ordering last, by
`⊤`, instead of raising), deduplicated again on url, capped at the first 10
unique entries, numbered consecutively from 1 with rows shaped by `rowStr`;
on a registry of 15 url-distinct sources it emits exactly 10 rows numbered
1–10. -/
theorem claim_C6 :
    (∀ st : CMState, format_sources_list st =
      "\n\n**Sources:**\n" ++ String.join
        ((numberFrom 1 ((dedupKeep (sortedRegistry st) []).take 10)).map rowStr)) ∧
    (∀ st : CMState, (sortedRegistry st).Sorted bibLe ∧
      (sortedRegistry st).Perm st.source_registry) ∧
    idNum "badId" = ⊤ ∧
    (∀ s t : Source,
      sortedRegistry
          { source_registry := [("badId", s), ("src_2", t)],
            citation_counter := 3, url_to_id := [] } =
        [("src_2", t), ("badId", s)]) ∧
    (bibRows st15).length = 10 ∧
    (bibRows st15).map (fun e => e.1) = List.range' 1 10 := by
  refine ⟨?_, ?_, by decide, ?_, ?_, ?_⟩
  · intro st
    rw [format_sources_list, bibRows, bibLoop_eq (sortedRegistry st) [] 0 (by omega)]
  · intro st
    exact ⟨List.sorted_insertionSort bibLe _, List.perm_insertionSort bibLe _⟩
  · intro s t
    show List.insertionSort bibLe [("badId", s), ("src_2", t)] = _
    have hcond : ¬ bibLe ("badId", s) ("src_2", t) := by
      simp only [bibLe, get_id_number]
      decide
    simp only [List.insertionSort, List.orderedInsert, if_neg hcond]
  · decide
  · decide

/-- C8: in every reachable state, for every identifier whose entry is
rendered in the bibliography, the row number the bibliography loop assigns to
it equals `get_citation_number` of the identifier — insertion order and
numeric-suffix order agree on reachable registries. -/
theorem claim_C8 (st : CMState) (source_id : String) (k : Nat)
    (hreach : Reachable st)
    (hmem : (source_id, k) ∈ (bibRows st).map (fun e => (e.2.1, e.1))) :
    get_citation_number st source_id = k := by
  obtain ⟨hkeys, hcount, hurls⟩ := reachable_regInv hreach
  have hsorted : sortedRegistry st = st.source_registry :=
    sortedRegistry_eq_of_canonical hkeys
  have hded : dedupKeep st.source_registry [] = st.source_registry :=
    dedupKeep_of_distinct (fun e _ => List.not_mem_nil _) hurls
  rw [bibRows, hsorted, bibLoop_eq st.source_registry [] 0 (by omega), hded] at hmem
  obtain ⟨e, he, heq⟩ := List.mem_map.1 hmem
  obtain ⟨k', sid', s⟩ := e
  have hsid : source_id = sid' := (congrArg Prod.fst heq).symm
  have hk : k = k' := (congrArg Prod.snd heq).symm
  subst hsid
  subst hk
  obtain ⟨hk1, hget⟩ := numberFrom_mem he
  have hlen : k - 1 < (st.source_registry.take (10 - 0)).length := by
    by_contra hge
    rw [List.get?_eq_none.2 (by omega)] at hget
    exact Option.noConfusion hget
  have hlt10 : k - 1 < 10 - 0 := lt_of_lt_of_le hlen (by
    simp)
  rw [List.get?_take hlt10] at hget
  have hgetkey : (st.source_registry.map Prod.fst).get? (k - 1) = some source_id := by
    rw [List.get?_map, hget]
    rfl
  have hnodup : (st.source_registry.map Prod.fst).Nodup := by
    rw [hkeys]
    exact (List.nodup_range' 1 _).map (fun i j h => mkId_injective h)
  have hmemberid : source_id ∈ st.source_registry.map Prod.fst :=
    List.get?_mem hgetkey
  simp only [get_citation_number]
  rw [if_pos hmemberid, listIndex_get? hnodup hgetkey]
  omega

theorem claim_C8_witness :
    Reachable st3 ∧
    ("src_1", 1) ∈ (bibRows st3).map (fun e => (e.2.1, e.1)) ∧
    get_citation_number st3 "src_1" = 1 :=
  ⟨Reachable.add initState srcA Reachable.init,
    by decide,
    claim_C8 st3 "src_1" 1 (Reachable.add initState srcA Reachable.init) (by decide)⟩

/-- C7: `create_cited_content` processes the identifiers in order, forming
for each the marker `[<citation number>]` and appending it after the last
sentence of the running text, so the annotated content always ends with the
concatenation of all the markers in the order the ids were given; on the
scenario input the result is `"Sentence one. Sentence two.[1]"`. -/
theorem claim_C7 :
    (∀ (st : CMState) (text : String) (source_ids : List String),
      ∃ p, (create_cited_content st text source_ids).content =
        p ++ String.join (source_ids.map (citationMarker st))) ∧
    (∀ (st : CMState) (sid : String),
      citationMarker st sid = "[" ++ natRepr (get_citation_number st sid) ++ "]") ∧
    (create_cited_content stC7 "Sentence one. Sentence two." ["id1"]).content =
      "Sentence one. Sentence two.[1]" := by
  refine ⟨?_, fun _ _ => rfl, by decide⟩
  intro st text source_ids
  have hws : wsFree ("" : String).data := by
    intro c hc
    exact absurd hc (List.not_mem_nil c)
  obtain ⟨p, hp⟩ := insert_fold_suffix st source_ids text "" hws ⟨text, by simp⟩
  refine ⟨p, ?_⟩
  show source_ids.foldl
      (fun cited sid => insert_citations cited (citationMarker st sid)) text =
    p ++ String.join (source_ids.map (citationMarker st))
  rw [hp]
  rfl

/-- C10: annotation is not a pure append: `insert_citations` rejoins the
sentence split with single spaces, so whenever that normalization changes the
text, the result differs from the input followed by the marker; in particular
a newline between sentences becomes a single space. -/
theorem claim_C10 :
    (∀ text citation : String, joinWith " " (splitSentences text) ≠ text →
      insert_citations text citation ≠ text ++ citation) ∧
    insert_citations "First.\nSecond." "[1]" = "First. Second.[1]" ∧
    ("First. Second.[1]" : String) ≠ "First.\nSecond." ++ "[1]" := by
  refine ⟨?_, by decide, by decide⟩
  intro text citation hne heq
  rw [insert_citations_eq] at heq
  exact hne (string_append_cancel_right heq)

theorem claim_C10_witness :
    joinWith " " (splitSentences "A.\tB.") ≠ "A.\tB." ∧
    insert_citations "A.\tB." "[2]" ≠ "A.\tB." ++ "[2]" :=
  ⟨by decide, claim_C10.1 "A.\tB." "[2]" (by decide)⟩
